import Mathlib

/-!
# Verification of the LibbyRip chapter-metadata core

A shallow embedding of the metadata-to-chapter transformation implemented in
`buildChapters.py` (metadata normalization, FFMETADATA text encoding, field
escaping) and in the per-part portion of `bake_metadata` in `bakeMetadata.py`
(per-spine chapter selection, overlap validation, ID3 chapter frames and the
table of contents).

JSON numbers (spine durations and chapter offsets, in seconds) are modelled
as rationals.  Python's `int(...)` truncation is `pyInt`, and Python's list
indexing (including negative end-relative indices) is `pyIndex`; an
uncaught `IndexError` is modelled by `Option`/`Except` failure.
-/

namespace LibbyRip

/-- Python `int(q)`: truncation of a rational toward zero. -/
def pyInt (q : ℚ) : ℤ := if 0 ≤ q then ⌊q⌋ else ⌈q⌉

/-- Python list indexing `xs[n]`: a negative `n` counts from the end of the
list; the result is `none` exactly when Python would raise `IndexError`. -/
def pyIndex (xs : List α) (n : ℤ) : Option α :=
  let m : ℤ := if n < 0 then n + xs.length else n
  if 0 ≤ m then xs[m.toNat]? else none

/-- A Python list comprehension over `l` whose body may raise: the first
failing element aborts the whole comprehension with no partial result. -/
def mapOpt (f : α → Option β) : List α → Option (List β)
  | [] => some []
  | a :: l =>
    match f a with
    | none => none
    | some b => (mapOpt f l).map (fun r => b :: r)

/-- One entry of `metadata["creator"]`. -/
structure RawCreator where
  name : String
  role : String
deriving DecidableEq

/-- One entry of `metadata["spine"]`: an audio segment with its duration in
seconds (the other JSON fields are unused by the code under study). -/
structure RawSpine where
  duration : ℚ
deriving DecidableEq

/-- One entry of `metadata["chapters"]`: a title, the index of the spine the
chapter starts in, and the offset in seconds from the start of that spine. -/
structure RawChapter where
  title : String
  spine : ℤ
  offset : ℚ
deriving DecidableEq

/-- The raw Libby metadata object, as parsed from `metadata.json`. -/
structure RawMetadata where
  title : String
  creator : List RawCreator
  spine : List RawSpine
  chapters : List RawChapter
deriving DecidableEq

/-- A resolved chapter (`buildChapters.Chapter`): title and the offset in
seconds from the start of the whole audiobook. -/
structure Chapter where
  title : String
  total_offset : ℚ
deriving DecidableEq

/-- The normalized metadata (`buildChapters.Metadata`). -/
structure Metadata where
  title : String
  author : Option String
  narrator : Option String
  total_duration : ℚ
  chapters : List Chapter
deriving DecidableEq

/-- The `spine_offsets` list of `Metadata.from_json`:
`spine_offsets[i] = sum(spine["duration"] for spine in spines[:i])`. -/
def spineOffsets (spines : List RawSpine) : List ℚ :=
  (List.range spines.length).map
    (fun i => ((spines.take i).map (fun sp => sp.duration)).sum)

/-- `contributors.get(r)` for the dict built by
`{creator["role"]: creator["name"] for creator in metadata["creator"]}`:
the name of the last creator carrying role `r`, if any. -/
def lookupRole (creators : List RawCreator) (r : String) : Option String :=
  (creators.filterMap (fun c => if c.role = r then some c.name else none)).getLast?

/-- Python truthiness of an optional string: `None` and `""` are falsy. -/
def truthy : Option String → Bool
  | none => false
  | some s => !(s == "")

/-- `Metadata.from_json` from `buildChapters.py`.  Chapter `total_offset` is
`chapter["offset"] + spine_offsets[chapter["spine"]]` (Python indexing);
`none` models the uncaught `IndexError` when that lookup is out of range.
Author and narrator come from the `"author"`/`"narrator"` roles, with the
combined `"author and narrator"` role filling each field that is falsy. -/
def Metadata.from_json (raw : RawMetadata) : Option Metadata :=
  let offs := spineOffsets raw.spine
  (mapOpt
      (fun c => (pyIndex offs c.spine).map
        (fun so => Chapter.mk c.title (c.offset + so)))
      raw.chapters).map
    (fun chs =>
      let a0 := lookupRole raw.creator "author"
      let n0 := lookupRole raw.creator "narrator"
      let both := lookupRole raw.creator "author and narrator"
      Metadata.mk raw.title
        (if truthy both && !truthy a0 then both else a0)
        (if truthy both && !truthy n0 then both else n0)
        ((raw.spine.map (fun sp => sp.duration)).sum)
        chs)

/-- The characters the regex `(=|;|#|\\|\n)` of `buildChapters.py` matches. -/
def ffSpecials : List Char := ['=', ';', '#', '\\', '\n']

/-- The effect of `ffmetadata_special_characters.sub(r"\\\1", ...)` on one
character: a matched character is replaced by a backslash plus itself. -/
def escChar (c : Char) : List Char :=
  if ffSpecials.contains c then ['\\', c] else [c]

/-- `escape_for_ffmetadata` from `buildChapters.py`. -/
def escape_for_ffmetadata (s : String) : String :=
  String.mk (s.data.flatMap escChar)

/-- Removal of each escaping backslash (the inverse direction of the
escaping law stated in the specification). -/
def unescChars : List Char → List Char
  | [] => []
  | [c] => [c]
  | c :: d :: rest =>
    if c = '\\' then d :: unescChars rest else c :: unescChars (d :: rest)

/-- `unescChars` lifted to strings. -/
def unescape (s : String) : String := String.mk (unescChars s.data)

/-- Scanner deciding that every special character of a character list occurs
only as the second character of a backslash-escape pair. -/
def allEscaped : List Char → Bool
  | [] => true
  | [c] => !(ffSpecials.contains c)
  | c :: d :: rest =>
    if c = '\\' then allEscaped rest
    else !(ffSpecials.contains c) && allEscaped (d :: rest)

/-- One `[CHAPTER]` block of `metadata_to_ffmpeg`, for chapter `c` followed
by `nx` (the next chapter, or the synthetic sentinel for the last one). -/
def ffChapterBlock (c nx : Chapter) : String :=
  "[CHAPTER]\nTIMEBASE=1/1000\nSTART=" ++ toString (pyInt (c.total_offset * 1000)) ++
    "\nEND=" ++ toString (pyInt (nx.total_offset * 1000)) ++
    "\ntitle=" ++ escape_for_ffmetadata c.title ++ "\n"

/-- The list of `[CHAPTER]` blocks: `zip(chapters, chapters[1:] + [Chapter("END", total_duration)])`. -/
def ffBlocks (m : Metadata) : List String :=
  (m.chapters.zip (m.chapters.drop 1 ++ [Chapter.mk "END" m.total_duration])).map
    (fun p => ffChapterBlock p.1 p.2)

/-- The `title=` line of `metadata_to_ffmpeg`. -/
def ffTitleLine (m : Metadata) : String :=
  "title=" ++ escape_for_ffmetadata m.title ++ "\n"

/-- The `artist=` line of `metadata_to_ffmpeg`: present only when
`metadata.author` is truthy. -/
def ffAuthorLine (m : Metadata) : String :=
  if truthy m.author then
    "artist=" ++ escape_for_ffmetadata (m.author.getD "") ++ "\n"
  else ""

/-- `metadata_to_ffmpeg` from `buildChapters.py`. -/
def metadata_to_ffmpeg (m : Metadata) : String :=
  ";FFMETADATA1\n" ++ ffTitleLine m ++ ffAuthorLine m ++ "\n" ++
    String.intercalate "\n" (ffBlocks m)

/-- The data carried by the overlapping-chapters `ValueError` message of
`bake_metadata`: the spine index and the two offending chapters. -/
structure OverlapError where
  spineIndex : ℤ
  priorTitle : String
  priorOffset : ℚ
  offendingTitle : String
  offendingOffset : ℚ
deriving DecidableEq

/-- A failure of the per-part processing of `bake_metadata`: either the
overlapping-chapters `ValueError`, or an uncaught `IndexError` from the
spine-duration lookup. -/
inductive BakeError where
  | overlap : OverlapError → BakeError
  | indexError : BakeError
deriving DecidableEq

/-- One ID3 chapter frame written by `audiofile.tag.chapters.set`: its
element id, its `(start_ms, end_ms)` range and its title. -/
structure Frame where
  fid : String
  startMs : ℤ
  endMs : ℤ
  frameTitle : String
deriving DecidableEq

/-- The table-of-contents frame written by
`audiofile.tag.table_of_contents.set`. -/
structure Toc where
  tid : String
  children : List String
  toplevel : Bool
  description : String
deriving DecidableEq

/-- The chapter-related tag payload `bake_metadata` produces for one part. -/
structure PartTags where
  frames : List Frame
  toc : Toc
deriving DecidableEq

/-- The overlap check of `bake_metadata` (inner loop): walk the chapters of
one spine with the previous chapter at hand and report the first pair with
non-increasing offsets. -/
def findOverlapGo (s : ℤ) (prev : RawChapter) : List RawChapter → Option OverlapError
  | [] => none
  | c :: rest =>
    if c.offset ≤ prev.offset then
      some ⟨s, prev.title, prev.offset, c.title, c.offset⟩
    else findOverlapGo s c rest

/-- The overlap check of `bake_metadata` over the whole per-spine chapter
list (vacuous for an empty list, as in the `if spine_chapters:` guard). -/
def findOverlap (s : ℤ) : List RawChapter → Option OverlapError
  | [] => none
  | c :: rest => findOverlapGo s c rest

/-- The chapter-frame loop of `bake_metadata`: called with loop index `k`,
the pending previous chapter `prev` and the remaining chapters.  Each
emitted frame gets id `"ch" + str(k)` (the index of the *following*
chapter), start `int(prev["offset"]) * 1000` and end
`int(chap["offset"]) * 1000 - 1`. -/
def midFrames (k : ℕ) (prev : RawChapter) : List RawChapter → List Frame
  | [] => []
  | c :: rest =>
    Frame.mk ("ch" ++ toString k) (pyInt prev.offset * 1000)
        (pyInt c.offset * 1000 - 1) prev.title ::
      midFrames (k + 1) c rest

/-- The per-part chapter processing of `bake_metadata`, applied to the
chapters already selected for the spine: overlap validation first, then the
chapter frames, the `"last"` frame (its end is
`int(spine[chap["spine"]]["duration"] * 1000)` for the final chapter
`chap`), and the table of contents with children `child_ids + [b"last"]`. -/
def buildPart (spines : List RawSpine) (s : ℤ) (cs : List RawChapter) :
    Except BakeError PartTags :=
  match findOverlap s cs with
  | some e => Except.error (BakeError.overlap e)
  | none =>
    match cs with
    | [] => Except.ok ⟨[], ⟨"toc", ["last"], true, "Table of Contents"⟩⟩
    | c0 :: rest =>
      let mids := midFrames 1 c0 rest
      let lc := (c0 :: rest).getLast (by simp)
      match pyIndex spines lc.spine with
      | none => Except.error BakeError.indexError
      | some sp =>
        Except.ok
          ⟨mids ++ [⟨"last", pyInt lc.offset * 1000,
              pyInt (sp.duration * 1000), lc.title⟩],
            ⟨"toc", mids.map (fun f => f.fid) ++ ["last"], true,
              "Table of Contents"⟩⟩

/-- Per-part processing of `bake_metadata` for spine index `s`: the chapters
of spine `s` are those whose `spine` field equals `s`, in file order (the
`chapters.setdefault(chap["spine"], []).append(chap)` grouping). -/
def bakePart (spines : List RawSpine) (chaps : List RawChapter) (s : ℤ) :
    Except BakeError PartTags :=
  buildPart spines s (chaps.filter (fun c => c.spine == s))

/-! ## Helper lemmas -/

theorem mem_of_some_index {α : Type} {l : List α} {i : ℕ} {a : α}
    (h : l[i]? = some a) : a ∈ l := by
  obtain ⟨hi, he⟩ := List.getElem?_eq_some.mp h
  exact he ▸ List.getElem_mem hi

theorem lt_length_of_some_index {α : Type} {l : List α} {i : ℕ} {a : α}
    (h : l[i]? = some a) : i < l.length :=
  (List.getElem?_eq_some.mp h).1

theorem pyIndex_of_nonneg {α : Type} (xs : List α) (n : ℤ) (h : 0 ≤ n) :
    pyIndex xs n = xs[n.toNat]? := by
  simp only [pyIndex]
  rw [if_neg (show ¬ n < 0 by omega), if_pos h]

theorem pyIndex_of_neg {α : Type} (xs : List α) (n : ℤ)
    (h : n < 0) (h2 : 0 ≤ n + xs.length) :
    pyIndex xs n = xs[(n + xs.length).toNat]? := by
  simp only [pyIndex]
  rw [if_pos h, if_pos h2]

theorem pyIndex_eq_none_iff {α : Type} (xs : List α) (n : ℤ) :
    pyIndex xs n = none ↔ ((xs.length : ℤ) ≤ n ∨ n < -(xs.length : ℤ)) := by
  simp only [pyIndex]
  by_cases hn : n < 0
  · rw [if_pos hn]
    by_cases hm : 0 ≤ n + (xs.length : ℤ)
    · rw [if_pos hm, List.getElem?_eq_none_iff]
      omega
    · rw [if_neg hm]
      simp only [true_iff]
      omega
  · rw [if_neg hn, if_pos (show (0 : ℤ) ≤ n by omega), List.getElem?_eq_none_iff]
    omega

theorem pyIndex_in_range {α : Type} (xs : List α) (n : ℤ)
    (h0 : 0 ≤ n) (h1 : n < xs.length) :
    ∃ a, pyIndex xs n = some a ∧ xs[n.toNat]? = some a := by
  rw [pyIndex_of_nonneg xs n h0]
  have hlt : n.toNat < xs.length := by omega
  exact ⟨xs[n.toNat], List.getElem?_eq_getElem hlt, List.getElem?_eq_getElem hlt⟩

theorem mapOpt_eq_none_iff {α β : Type} (f : α → Option β) (l : List α) :
    mapOpt f l = none ↔ ∃ a ∈ l, f a = none := by
  induction l with
  | nil => simp [mapOpt]
  | cons a t ih =>
    simp only [mapOpt]
    cases hfa : f a with
    | none => simp [hfa]
    | some b =>
      simp only [Option.map_eq_none', ih]
      constructor
      · intro ⟨c, hc, hfc⟩
        exact ⟨c, List.mem_cons_of_mem a hc, hfc⟩
      · rintro ⟨c, hc, hfc⟩
        rcases List.mem_cons.mp hc with rfl | hmem
        · rw [hfa] at hfc; cases hfc
        · exact ⟨c, hmem, hfc⟩

theorem mapOpt_length {α β : Type} (f : α → Option β) :
    ∀ (l : List α) (r : List β), mapOpt f l = some r → r.length = l.length := by
  intro l
  induction l with
  | nil => intro r h; simp [mapOpt] at h; simp [← h]
  | cons a t ih =>
    intro r h
    simp only [mapOpt] at h
    cases hfa : f a with
    | none => rw [hfa] at h; cases h
    | some b =>
      rw [hfa] at h
      obtain ⟨r', hr', rfl⟩ := Option.map_eq_some'.mp h
      simp [ih r' hr']

theorem mapOpt_index {α β : Type} (f : α → Option β) :
    ∀ (l : List α) (r : List β), mapOpt f l = some r →
      ∀ (i : ℕ) (a : α), l[i]? = some a →
        ∃ b, f a = some b ∧ r[i]? = some b := by
  intro l
  induction l with
  | nil => intro r _ i a ha; simp at ha
  | cons x t ih =>
    intro r h i a ha
    simp only [mapOpt] at h
    cases hfx : f x with
    | none => rw [hfx] at h; cases h
    | some b =>
      rw [hfx] at h
      obtain ⟨r', hr', rfl⟩ := Option.map_eq_some'.mp h
      cases i with
      | zero =>
        simp only [List.getElem?_cons_zero, Option.some.injEq] at ha
        exact ⟨b, ha ▸ hfx, by simp⟩
      | succ j =>
        simp only [List.getElem?_cons_succ] at ha
        obtain ⟨c, hc, hc'⟩ := ih r' hr' j a ha
        exact ⟨c, hc, by simpa using hc'⟩

theorem spineOffsets_length (sp : List RawSpine) :
    (spineOffsets sp).length = sp.length := by
  simp [spineOffsets]

theorem spineOffsets_index (sp : List RawSpine) (i : ℕ) (h : i < sp.length) :
    (spineOffsets sp)[i]? =
      some (((sp.take i).map (fun s => s.duration)).sum) := by
  simp [spineOffsets, List.getElem?_map, List.getElem?_range h]

/-- Splitting `Metadata.from_json raw = some m` into the chapter
computation and the construction of the record. -/
theorem from_json_eq_some {raw : RawMetadata} {m : Metadata}
    (h : Metadata.from_json raw = some m) :
    ∃ chs,
      mapOpt
          (fun c => (pyIndex (spineOffsets raw.spine) c.spine).map
            (fun so => Chapter.mk c.title (c.offset + so)))
          raw.chapters = some chs ∧
      m.title = raw.title ∧
      m.author = (if truthy (lookupRole raw.creator "author and narrator") &&
          !truthy (lookupRole raw.creator "author") then
            lookupRole raw.creator "author and narrator"
          else lookupRole raw.creator "author") ∧
      m.narrator = (if truthy (lookupRole raw.creator "author and narrator") &&
          !truthy (lookupRole raw.creator "narrator") then
            lookupRole raw.creator "author and narrator"
          else lookupRole raw.creator "narrator") ∧
      m.total_duration = ((raw.spine.map (fun sp => sp.duration)).sum) ∧
      m.chapters = chs := by
  simp only [Metadata.from_json] at h
  obtain ⟨chs, hchs, rfl⟩ := Option.map_eq_some'.mp h
  exact ⟨chs, hchs, rfl, rfl, rfl, rfl, rfl⟩

/-- `Metadata.from_json` fails (with Python's `IndexError`) exactly when
some chapter's spine index is out of Python range for the spine list. -/
theorem from_json_none_iff (raw : RawMetadata) :
    Metadata.from_json raw = none ↔
      ∃ c ∈ raw.chapters,
        ((raw.spine.length : ℤ) ≤ c.spine ∨ c.spine < -(raw.spine.length : ℤ)) := by
  simp only [Metadata.from_json, Option.map_eq_none', mapOpt_eq_none_iff,
    Option.map_eq_none', pyIndex_eq_none_iff, spineOffsets_length]

/-! ## C1: chapter normalization computes prefix-sum absolute offsets -/

/-- C1: for raw metadata whose chapters all have in-range spine indices,
`Metadata.from_json` gives each chapter a `total_offset` equal to the sum of
the durations of all spines preceding that chapter's spine plus the
chapter's own intra-spine offset, and the `spine_offsets` list is the
prefix-sum list of the spine durations, starting at `0` for spine `0`. -/
theorem fromJson_total_offsets (raw : RawMetadata) (m : Metadata)
    (hr : ∀ c ∈ raw.chapters, 0 ≤ c.spine ∧ c.spine < (raw.spine.length : ℤ))
    (hm : Metadata.from_json raw = some m) :
    m.chapters.length = raw.chapters.length ∧
    (∀ (i : ℕ) (c : RawChapter), raw.chapters[i]? = some c →
      m.chapters[i]? = some (Chapter.mk c.title
        (c.offset +
          ((raw.spine.take c.spine.toNat).map (fun sp => sp.duration)).sum))) ∧
    (raw.spine ≠ [] → (spineOffsets raw.spine)[0]? = some 0) ∧
    (∀ (i : ℕ) (sp : RawSpine), raw.spine[i]? = some sp →
      ∀ q : ℚ, (spineOffsets raw.spine)[i]? = some q →
        (spineOffsets raw.spine)[i+1]? = some (q + sp.duration) ∨
          i + 1 = raw.spine.length) := by
  obtain ⟨chs, hchs, -, -, -, -, hchap⟩ := from_json_eq_some hm
  refine ⟨?_, ?_, ?_, ?_⟩
  · rw [hchap]; exact mapOpt_length _ _ _ hchs
  · intro i c hic
    obtain ⟨b, hb, hb'⟩ := mapOpt_index _ _ _ hchs i c hic
    obtain ⟨h0, h1⟩ := hr c (mem_of_some_index hic)
    have hlt : c.spine.toNat < raw.spine.length := by omega
    rw [pyIndex_of_nonneg _ _ h0, spineOffsets_index _ _ hlt,
      Option.map_some'] at hb
    rw [hchap, hb', ← hb]
  · intro hne
    have h0 : 0 < raw.spine.length := List.length_pos.mpr hne
    rw [spineOffsets_index _ _ h0]
    simp
  · intro i sp hisp q hq
    by_cases hend : i + 1 = raw.spine.length
    · exact Or.inr hend
    · left
      have hi : i < raw.spine.length := lt_length_of_some_index hisp
      have hi1 : i + 1 < raw.spine.length := by omega
      rw [spineOffsets_index _ _ hi] at hq
      rw [spineOffsets_index _ _ hi1]
      have hsp : raw.spine[i] = sp := by
        have := List.getElem?_eq_getElem hi
        rw [hisp] at this
        exact (Option.some.injEq _ _ ▸ this.symm :)
      have hms : ((raw.spine.take (i+1)).map (fun sp => sp.duration)).sum =
          ((raw.spine.take i).map (fun sp => sp.duration)).sum + sp.duration := by
        rw [List.map_take, List.map_take,
          List.sum_take_succ (raw.spine.map (fun sp => sp.duration)) i (by simpa using hi)]
        simp [List.get_eq_getElem, hsp]
      rw [hms, Option.some.injEq, Option.some.inj hq]

/-- Concrete input for the witnesses of C1: the two-spine scenario of the
specification. -/
def rawC1 : RawMetadata :=
  ⟨"Book", [], [⟨300⟩, ⟨300⟩],
    [⟨"Intro", 0, 0⟩, ⟨"Ch1", 0, 150⟩, ⟨"Ch2", 1, 0⟩]⟩

/-- The normalized metadata for `rawC1`. -/
def mC1 : Metadata :=
  ⟨"Book", none, none, 600, [⟨"Intro", 0⟩, ⟨"Ch1", 150⟩, ⟨"Ch2", 300⟩]⟩

/-- Witness for C1 at `rawC1`. -/
theorem fromJson_total_offsets_witness :
    (∀ c ∈ rawC1.chapters, 0 ≤ c.spine ∧ c.spine < (rawC1.spine.length : ℤ)) ∧
    Metadata.from_json rawC1 = some mC1 ∧
    (mC1.chapters.length = rawC1.chapters.length ∧
      (∀ (i : ℕ) (c : RawChapter), rawC1.chapters[i]? = some c →
        mC1.chapters[i]? = some (Chapter.mk c.title
          (c.offset +
            ((rawC1.spine.take c.spine.toNat).map (fun sp => sp.duration)).sum))) ∧
      (rawC1.spine ≠ [] → (spineOffsets rawC1.spine)[0]? = some 0) ∧
      (∀ (i : ℕ) (sp : RawSpine), rawC1.spine[i]? = some sp →
        ∀ q : ℚ, (spineOffsets rawC1.spine)[i]? = some q →
          (spineOffsets rawC1.spine)[i+1]? = some (q + sp.duration) ∨
            i + 1 = rawC1.spine.length)) := by
  have h1 : ∀ c ∈ rawC1.chapters, 0 ≤ c.spine ∧ c.spine < (rawC1.spine.length : ℤ) := by
    decide
  have h2 : Metadata.from_json rawC1 = some mC1 := by
    simp [Metadata.from_json, mapOpt, spineOffsets, pyIndex, lookupRole,
      truthy, rawC1, mC1, List.range_succ]
    norm_num
  exact ⟨h1, h2, fromJson_total_offsets rawC1 mC1 h1 h2⟩

/-! ## C8: behaviour of normalization on out-of-range spine indices -/

/-- Concrete input for the C8 counterexample: a chapter whose `spine` field
is `-1`, which is not a position of the two-element spine sequence. -/
def rawC8 : RawMetadata := ⟨"t", [], [⟨1⟩, ⟨1⟩], [⟨"c", -1, 0⟩]⟩

/-- The value `Metadata.from_json` produces for `rawC8`: the chapter is
resolved against the *last* spine (Python end-relative indexing). -/
def mC8 : Metadata := ⟨"t", none, none, 2, [⟨"c", 1⟩]⟩

/-- C8 counterexample: `rawC8` has a chapter whose spine index `-1` is not
in range of the spine sequence (positions `0` and `1`), yet normalization
raises no error at all — it succeeds, so in particular it does not fail
with a `MalformedMetadataError`. -/
theorem fromJson_negative_spine_cex :
    rawC8.chapters = [⟨"c", -1, 0⟩] ∧
    ¬ (0 ≤ (-1 : ℤ) ∧ (-1 : ℤ) < (rawC8.spine.length : ℤ)) ∧
    Metadata.from_json rawC8 = some mC8 := by
  refine ⟨rfl, by decide, ?_⟩
  simp [Metadata.from_json, mapOpt, spineOffsets, pyIndex, lookupRole,
    truthy, rawC8, mC8, List.range_succ]
  norm_num

/-- C8 amended: normalization fails — with Python's unstructured
`IndexError`, there is no `MalformedMetadataError` in the code — exactly
when some chapter's spine index is `≥ len(spines)` or `< -len(spines)`;
the failure rejects the input wholesale (no partial `Metadata` value).
Spine indices in `[-len(spines), 0)` are accepted via Python's
end-relative indexing. -/
theorem fromJson_rejects_out_of_range (raw : RawMetadata) :
    Metadata.from_json raw = none ↔
      ∃ c ∈ raw.chapters,
        ((raw.spine.length : ℤ) ≤ c.spine ∨ c.spine < -(raw.spine.length : ℤ)) :=
  from_json_none_iff raw

/-! ## C10: Python negative indexing inside normalization -/

/-- C10: a chapter whose `spine` field is a negative `n` with
`-len(spines) ≤ n < 0` raises no error: its `total_offset` is computed from
the start offset of the `n`-th spine counted from the end; an
(unstructured) failure occurs exactly for `spine ≥ len(spines)` or
`spine < -len(spines)`. -/
theorem fromJson_python_indexing (raw : RawMetadata) :
    ((∀ c ∈ raw.chapters,
        -(raw.spine.length : ℤ) ≤ c.spine ∧ c.spine < (raw.spine.length : ℤ)) →
      ∃ m, Metadata.from_json raw = some m) ∧
    (∀ m, Metadata.from_json raw = some m →
      ∀ (i : ℕ) (c : RawChapter), raw.chapters[i]? = some c →
        -(raw.spine.length : ℤ) ≤ c.spine → c.spine < 0 →
        m.chapters[i]? = some (Chapter.mk c.title
          (c.offset +
            ((raw.spine.take (c.spine + (raw.spine.length : ℤ)).toNat).map
              (fun sp => sp.duration)).sum))) ∧
    (Metadata.from_json raw = none ↔
      ∃ c ∈ raw.chapters,
        ((raw.spine.length : ℤ) ≤ c.spine ∨ c.spine < -(raw.spine.length : ℤ))) := by
  refine ⟨?_, ?_, from_json_none_iff raw⟩
  · intro hall
    rw [← Option.ne_none_iff_exists']
    intro hnone
    obtain ⟨c, hc, hout⟩ := (from_json_none_iff raw).mp hnone
    obtain ⟨h0, h1⟩ := hall c hc
    omega
  · intro m hm i c hic hneg hlt
    obtain ⟨chs, hchs, -, -, -, -, hchap⟩ := from_json_eq_some hm
    obtain ⟨b, hb, hb'⟩ := mapOpt_index _ _ _ hchs i c hic
    have hlen : ((spineOffsets raw.spine).length : ℤ) = (raw.spine.length : ℤ) := by
      rw [spineOffsets_length]
    have hneg' : c.spine < 0 := hlt
    have h2 : (0 : ℤ) ≤ c.spine + (spineOffsets raw.spine).length := by
      rw [hlen]; omega
    have hidx : (c.spine + ((spineOffsets raw.spine).length : ℤ)).toNat <
        raw.spine.length := by
      rw [hlen]; omega
    rw [pyIndex_of_neg _ _ hneg' h2, spineOffsets_index _ _ hidx,
      Option.map_some'] at hb
    rw [hchap, hb', ← hb, hlen]

/-- Concrete input for the C10 witness: one chapter with spine `-2` over two
spines of durations `3` and `5`. -/
def rawC10 : RawMetadata := ⟨"t", [], [⟨3⟩, ⟨5⟩], [⟨"c", -2, 1⟩]⟩

/-- The normalized metadata for `rawC10`: spine `-2` resolves to spine `0`,
whose start offset is `0`. -/
def mC10 : Metadata := ⟨"t", none, none, 8, [⟨"c", 1⟩]⟩

/-- Witness for C10 at `rawC10`. -/
theorem fromJson_python_indexing_witness :
    (∀ c ∈ rawC10.chapters,
      -(rawC10.spine.length : ℤ) ≤ c.spine ∧ c.spine < (rawC10.spine.length : ℤ)) ∧
    Metadata.from_json rawC10 = some mC10 ∧
    rawC10.chapters[0]? = some ⟨"c", -2, 1⟩ ∧
    mC10.chapters[0]? = some (Chapter.mk "c"
      ((1 : ℚ) +
        ((rawC10.spine.take ((-2 : ℤ) + (rawC10.spine.length : ℤ)).toNat).map
          (fun sp => sp.duration)).sum)) := by
  have h2 : Metadata.from_json rawC10 = some mC10 := by
    simp [Metadata.from_json, mapOpt, spineOffsets, pyIndex, lookupRole,
      truthy, rawC10, mC10, List.range_succ]
    norm_num
  refine ⟨by decide, h2, rfl, ?_⟩
  exact (fromJson_python_indexing rawC10).2.1 mC10 h2 0 ⟨"c", -2, 1⟩ rfl
    (by decide) (by decide)

/-! ## C9: author/narrator resolution from the contributor list -/

/-- Concrete input for the C9 counterexample: an explicit `"author"` entry
whose name is the empty string, next to an `"author and narrator"` entry. -/
def rawC9 : RawMetadata :=
  ⟨"t", [⟨"", "author"⟩, ⟨"Bob", "author and narrator"⟩], [], []⟩

/-- The normalized metadata for `rawC9`: the explicitly given (empty)
author name is overwritten by the combined role. -/
def mC9 : Metadata := ⟨"t", some "Bob", some "Bob", 0, []⟩

/-- C9 counterexample: the contributor list explicitly assigns the
`"author"` role the name `""`, yet the resolved author is `"Bob"` from the
`"author and narrator"` role — the combined role *does* overwrite an
explicitly given value when that value is the empty string (Python
falsiness), contradicting the claim's "never overwrites". -/
theorem author_overwrite_cex :
    lookupRole rawC9.creator "author" = some "" ∧
    Metadata.from_json rawC9 = some mC9 ∧
    mC9.author ≠ some "" := by
  refine ⟨by decide, ?_, by decide⟩
  simp [Metadata.from_json, mapOpt, spineOffsets, lookupRole, truthy,
    rawC9, mC9]

/-- C9 amended: an explicit `"author"`/`"narrator"` role takes precedence
when its name is non-empty; the `"author and narrator"` role fills a field
whose explicit value is missing *or empty* (Python truthiness), so it can
overwrite an explicitly given empty-string name.  A single contributor with
role `"author and narrator"` and no explicit entries yields
`author == narrator ==` that contributor's name. -/
theorem author_narrator_resolution (raw : RawMetadata) (m : Metadata)
    (hm : Metadata.from_json raw = some m) :
    (∀ a, lookupRole raw.creator "author" = some a → a ≠ "" →
      m.author = some a) ∧
    (∀ b, lookupRole raw.creator "author and narrator" = some b → b ≠ "" →
      truthy (lookupRole raw.creator "author") = false → m.author = some b) ∧
    (truthy (lookupRole raw.creator "author and narrator") = false →
      m.author = lookupRole raw.creator "author") ∧
    (∀ a, lookupRole raw.creator "narrator" = some a → a ≠ "" →
      m.narrator = some a) ∧
    (∀ b, lookupRole raw.creator "author and narrator" = some b → b ≠ "" →
      truthy (lookupRole raw.creator "narrator") = false → m.narrator = some b) ∧
    (truthy (lookupRole raw.creator "author and narrator") = false →
      m.narrator = lookupRole raw.creator "narrator") := by
  obtain ⟨chs, -, -, hauth, hnarr, -, -⟩ := from_json_eq_some hm
  refine ⟨?_, ?_, ?_, ?_, ?_, ?_⟩
  · intro a ha hne
    rw [hauth, ha]
    have ht : truthy (some a) = true := by simp [truthy, hne]
    rw [ht]
    simp
  · intro b hb hbne hfa
    rw [hauth, hb]
    have ht : truthy (some b) = true := by simp [truthy, hbne]
    rw [ht, hfa]
    simp
  · intro hfb
    rw [hauth, hfb]
    simp
  · intro a ha hne
    rw [hnarr, ha]
    have ht : truthy (some a) = true := by simp [truthy, hne]
    rw [ht]
    simp
  · intro b hb hbne hfa
    rw [hnarr, hb]
    have ht : truthy (some b) = true := by simp [truthy, hbne]
    rw [ht, hfa]
    simp
  · intro hfb
    rw [hnarr, hfb]
    simp

/-- Concrete input for the C9 witness: the single-contributor scenario of
the specification. -/
def rawC9w : RawMetadata := ⟨"t", [⟨"Jane", "author and narrator"⟩], [], []⟩

/-- The normalized metadata for `rawC9w`. -/
def mC9w : Metadata := ⟨"t", some "Jane", some "Jane", 0, []⟩

/-- Witness for C9 at `rawC9w`: the combined role fills both missing
fields, giving `author == narrator == "Jane"`. -/
theorem author_narrator_resolution_witness :
    Metadata.from_json rawC9w = some mC9w ∧
    lookupRole rawC9w.creator "author and narrator" = some "Jane" ∧
    truthy (lookupRole rawC9w.creator "author") = false ∧
    truthy (lookupRole rawC9w.creator "narrator") = false ∧
    mC9w.author = some "Jane" ∧ mC9w.narrator = some "Jane" := by
  have hm : Metadata.from_json rawC9w = some mC9w := by
    simp [Metadata.from_json, mapOpt, spineOffsets, lookupRole, truthy,
      rawC9w, mC9w]
  refine ⟨hm, by decide, by decide, by decide, ?_, ?_⟩
  · exact (author_narrator_resolution rawC9w mC9w hm).2.1 "Jane"
      (by decide) (by decide) (by decide)
  · exact (author_narrator_resolution rawC9w mC9w hm).2.2.2.2.1 "Jane"
      (by decide) (by decide) (by decide)

/-! ## C5: the FFMETADATA escaping law -/

theorem unescChars_cons_ne (c : Char) (l : List Char) (h : ¬ c = '\\') :
    unescChars (c :: l) = c :: unescChars l := by
  cases l with
  | nil => rfl
  | cons d rest => simp [unescChars, h]

theorem unescChars_pair (c : Char) (l : List Char) :
    unescChars ('\\' :: c :: l) = c :: unescChars l := by
  simp [unescChars]

theorem unescChars_flatMap_escChar (l : List Char) :
    unescChars (l.flatMap escChar) = l := by
  induction l with
  | nil => rfl
  | cons c t ih =>
    rw [List.flatMap_cons]
    by_cases hc : ffSpecials.contains c = true
    · rw [show escChar c = ['\\', c] from by simp only [escChar]; rw [if_pos hc]]
      simp only [List.cons_append, List.nil_append, unescChars_pair, ih]
    · have hc' : ffSpecials.contains c = false := by simpa using hc
      have hne : ¬ c = '\\' := by
        intro h
        rw [h] at hc'
        exact absurd hc' (by decide)
      rw [show escChar c = [c] from by simp only [escChar]; rw [if_neg hc],
        List.singleton_append, unescChars_cons_ne c _ hne, ih]

theorem allEscaped_cons_ne (c : Char) (l : List Char)
    (hc : ffSpecials.contains c = false) :
    allEscaped (c :: l) = allEscaped l := by
  have hne : ¬ c = '\\' := by
    intro h
    rw [h] at hc
    exact absurd hc (by decide)
  cases l with
  | nil => simp only [allEscaped, hc, Bool.not_false]
  | cons d rest =>
    simp only [allEscaped, if_neg hne, hc, Bool.not_false, Bool.true_and]

theorem allEscaped_pair (c : Char) (l : List Char) :
    allEscaped ('\\' :: c :: l) = allEscaped l := by
  simp [allEscaped]

theorem allEscaped_flatMap_escChar (l : List Char) :
    allEscaped (l.flatMap escChar) = true := by
  induction l with
  | nil => rfl
  | cons c t ih =>
    rw [List.flatMap_cons]
    by_cases hc : ffSpecials.contains c = true
    · rw [show escChar c = ['\\', c] from by simp only [escChar]; rw [if_pos hc]]
      simp only [List.cons_append, List.nil_append, allEscaped_pair, ih]
    · have hc' : ffSpecials.contains c = false := by simpa using hc
      rw [show escChar c = [c] from by simp only [escChar]; rw [if_neg hc],
        List.singleton_append, allEscaped_cons_ne c _ hc', ih]

/-- C5: `escape_for_ffmetadata` prefixes every occurrence of `=`, `;`, `#`,
backslash and newline with a single backslash: removing each escaping
backslash from the output recovers the input exactly, no unescaped
occurrence of those characters remains in the output, and the title
`"A; B=C"` becomes `"A\; B\=C"`. -/
theorem ffmetadata_escape_law :
    (∀ s : String, unescape (escape_for_ffmetadata s) = s) ∧
    (∀ s : String, allEscaped (escape_for_ffmetadata s).data = true) ∧
    escape_for_ffmetadata "A; B=C" = "A\\; B\\=C" := by
  refine ⟨?_, ?_, by decide⟩
  · intro s
    show String.mk (unescChars (s.data.flatMap escChar)) = s
    rw [unescChars_flatMap_escChar]
  · intro s
    exact allEscaped_flatMap_escChar s.data

/-! ## C4: structure of the FFMETADATA output -/

/-- Indexing `zip(chapters, chapters[1:] + [sentinel])`: entry `i` pairs
element `i` with element `i+1`, or with the sentinel for the last entry. -/
theorem zip_next_index {α : Type} (sentinel : α) :
    ∀ (l : List α) (i : ℕ) (a : α), l[i]? = some a →
      (l.zip (l.drop 1 ++ [sentinel]))[i]? =
        some (a, (l[i+1]?).getD sentinel) := by
  intro l
  induction l with
  | nil => intro i a h; simp at h
  | cons x xs ih =>
    intro i a h
    cases i with
    | zero =>
      simp only [List.getElem?_cons_zero, Option.some.injEq] at h
      subst h
      cases xs with
      | nil => simp
      | cons y ys => simp
    | succ j =>
      simp only [List.getElem?_cons_succ] at h
      cases xs with
      | nil => simp at h
      | cons y ys =>
        have := ih j a h
        simpa using this

/-- `zip(chapters, chapters[1:] + [sentinel])` has exactly one entry per
chapter: the sentinel never contributes an entry of its own. -/
theorem zip_next_length {α : Type} (sentinel : α) (l : List α) :
    (l.zip (l.drop 1 ++ [sentinel])).length = l.length := by
  simp [List.length_zip]
  omega

theorem ffBlocks_length (m : Metadata) :
    (ffBlocks m).length = m.chapters.length := by
  simp only [ffBlocks, List.length_map, zip_next_length]

theorem ffBlocks_index (m : Metadata) (i : ℕ) (a : Chapter)
    (h : m.chapters[i]? = some a) :
    (ffBlocks m)[i]? = some (ffChapterBlock a
      ((m.chapters[i+1]?).getD (Chapter.mk "END" m.total_duration))) := by
  simp only [ffBlocks, List.getElem?_map,
    zip_next_index (Chapter.mk "END" m.total_duration) m.chapters i a h,
    Option.map_some']

/-- C4: `metadata_to_ffmpeg` emits the fixed `;FFMETADATA1` header, a
`title=` line, an `artist=` line only when the author is present, then one
`[CHAPTER]` block per chapter with `TIMEBASE=1/1000`, `START` the chapter's
millisecond offset from the start of the audiobook and `END` the next
chapter's `START` with no `-1` adjustment; the final real chapter's `END`
comes from the internally appended sentinel chapter whose start is the
total duration, and the sentinel is never emitted as a block of its own
(there are exactly `chapters.length` blocks). -/
theorem ffmetadata_format (m : Metadata) :
    metadata_to_ffmpeg m = ";FFMETADATA1\n" ++ ffTitleLine m ++
      ffAuthorLine m ++ "\n" ++ String.intercalate "\n" (ffBlocks m) ∧
    ffTitleLine m = "title=" ++ escape_for_ffmetadata m.title ++ "\n" ∧
    (ffBlocks m).length = m.chapters.length ∧
    (∀ (i : ℕ) (a : Chapter), m.chapters[i]? = some a →
      (ffBlocks m)[i]? = some ("[CHAPTER]\nTIMEBASE=1/1000\nSTART=" ++
        toString (pyInt (a.total_offset * 1000)) ++ "\nEND=" ++
        toString (pyInt
          (((m.chapters[i+1]?).getD (Chapter.mk "END" m.total_duration)).total_offset
            * 1000)) ++
        "\ntitle=" ++ escape_for_ffmetadata a.title ++ "\n")) ∧
    (m.author = none → ffAuthorLine m = "") ∧
    (∀ t : String, ffAuthorLine m = "artist=" ++ t ++ "\n" →
      ∃ a, m.author = some a) := by
  refine ⟨rfl, rfl, ffBlocks_length m, ?_, ?_, ?_⟩
  · intro i a h
    exact ffBlocks_index m i a h
  · intro ha
    simp [ffAuthorLine, ha, truthy]
  · intro t h
    cases ha : m.author with
    | none =>
      rw [show ffAuthorLine m = "" from by simp [ffAuthorLine, ha, truthy]] at h
      have hlen := congrArg String.length h
      rw [String.length_append, String.length_append] at hlen
      have h7 : ("artist=" : String).length = 7 := rfl
      have h0 : ("" : String).length = 0 := rfl
      have h1 : ("\n" : String).length = 1 := rfl
      omega
    | some a => exact ⟨a, rfl⟩

/-- Concrete metadata for the C4 witness (author present). -/
def mC4 : Metadata := ⟨"T", some "A", none, 10, [⟨"c1", 0⟩, ⟨"c2", 4⟩]⟩

/-- Concrete metadata for the C4 witness (author absent). -/
def mC4n : Metadata := ⟨"T", none, none, 10, [⟨"c1", 0⟩]⟩

/-- Witness for C4 at `mC4` and `mC4n`. -/
theorem ffmetadata_format_witness :
    mC4.chapters[0]? = some (Chapter.mk "c1" 0) ∧
    (ffBlocks mC4)[0]? = some ("[CHAPTER]\nTIMEBASE=1/1000\nSTART=" ++
      toString (pyInt ((Chapter.mk "c1" (0 : ℚ)).total_offset * 1000)) ++
      "\nEND=" ++
      toString (pyInt
        (((mC4.chapters[0+1]?).getD (Chapter.mk "END" mC4.total_duration)).total_offset
          * 1000)) ++
      "\ntitle=" ++ escape_for_ffmetadata (Chapter.mk "c1" (0 : ℚ)).title ++ "\n") ∧
    mC4n.author = none ∧ ffAuthorLine mC4n = "" := by
  refine ⟨rfl, ?_, rfl, ?_⟩
  · exact (ffmetadata_format mC4).2.2.2.1 0 (Chapter.mk "c1" 0) rfl
  · exact (ffmetadata_format mC4n).2.2.2.2.1 rfl

/-! ## Lemmas on the per-part processing of `bake_metadata` -/

theorem findOverlapGo_none_of_chain (s : ℤ) :
    ∀ (l : List RawChapter) (prev : RawChapter),
      List.Chain' (fun a b => a.offset < b.offset) (prev :: l) →
      findOverlapGo s prev l = none := by
  intro l
  induction l with
  | nil => intro prev _; rfl
  | cons c rest ih =>
    intro prev hch
    obtain ⟨hlt, hch'⟩ := List.chain'_cons.mp hch
    simp only [findOverlapGo, if_neg (not_le.mpr hlt)]
    exact ih c hch'

theorem findOverlapGo_none_chain (s : ℤ) :
    ∀ (l : List RawChapter) (prev : RawChapter),
      findOverlapGo s prev l = none →
      List.Chain' (fun a b => a.offset < b.offset) (prev :: l) := by
  intro l
  induction l with
  | nil => intro prev _; exact List.chain'_singleton prev
  | cons c rest ih =>
    intro prev h
    by_cases hle : c.offset ≤ prev.offset
    · simp only [findOverlapGo, if_pos hle] at h
      cases h
    · simp only [findOverlapGo, if_neg hle] at h
      exact List.chain'_cons.mpr ⟨not_le.mp hle, ih c h⟩

theorem findOverlapGo_some_shape (s : ℤ) :
    ∀ (l : List RawChapter) (prev : RawChapter) (e : OverlapError),
      findOverlapGo s prev l = some e →
      ∃ (j : ℕ) (a b : RawChapter), (prev :: l)[j]? = some a ∧
        (prev :: l)[j+1]? = some b ∧ b.offset ≤ a.offset ∧
        e = ⟨s, a.title, a.offset, b.title, b.offset⟩ := by
  intro l
  induction l with
  | nil => intro prev e h; cases h
  | cons c rest ih =>
    intro prev e h
    by_cases hle : c.offset ≤ prev.offset
    · simp only [findOverlapGo, if_pos hle] at h
      exact ⟨0, prev, c, by simp, by simp, hle, (Option.some.inj h).symm⟩
    · simp only [findOverlapGo, if_neg hle] at h
      obtain ⟨j, a, b, ha, hb, hba, he⟩ := ih c e h
      exact ⟨j + 1, a, b, by simpa using ha, by simpa using hb, hba, he⟩

theorem chain_lt_at :
    ∀ (cs : List RawChapter),
      List.Chain' (fun a b => a.offset < b.offset) cs →
      ∀ (j : ℕ) (a b : RawChapter), cs[j]? = some a → cs[j+1]? = some b →
        a.offset < b.offset := by
  intro cs
  induction cs with
  | nil => intro _ j a b ha _; simp at ha
  | cons x xs ih =>
    intro hch j a b ha hb
    cases xs with
    | nil =>
      cases j <;> simp at hb
    | cons y ys =>
      obtain ⟨hxy, hch'⟩ := List.chain'_cons.mp hch
      cases j with
      | zero =>
        simp only [List.getElem?_cons_zero, Option.some.injEq] at ha
        simp only [List.getElem?_cons_succ, List.getElem?_cons_zero,
          Option.some.injEq] at hb
        subst ha; subst hb; exact hxy
      | succ k =>
        simp only [List.getElem?_cons_succ] at ha hb
        exact ih hch' k a b ha (by simpa using hb)

theorem midFrames_length :
    ∀ (l : List RawChapter) (k : ℕ) (prev : RawChapter),
      (midFrames k prev l).length = l.length := by
  intro l
  induction l with
  | nil => intro k prev; rfl
  | cons c rest ih => intro k prev; simp [midFrames, ih]

theorem midFrames_index :
    ∀ (l : List RawChapter) (k : ℕ) (prev : RawChapter) (i : ℕ)
      (a b : RawChapter),
      (prev :: l)[i]? = some a → l[i]? = some b →
      (midFrames k prev l)[i]? = some (Frame.mk ("ch" ++ toString (k + i))
        (pyInt a.offset * 1000) (pyInt b.offset * 1000 - 1) a.title) := by
  intro l
  induction l with
  | nil => intro k prev i a b _ hb; simp at hb
  | cons c rest ih =>
    intro k prev i a b ha hb
    cases i with
    | zero =>
      simp only [List.getElem?_cons_zero, Option.some.injEq] at ha hb
      subst ha; subst hb
      simp [midFrames]
    | succ j =>
      simp only [List.getElem?_cons_succ] at ha hb
      have harr : k + (j + 1) = k + 1 + j := by omega
      rw [harr]
      simp only [midFrames, List.getElem?_cons_succ]
      exact ih (k + 1) c j a b ha hb

theorem midFrames_map_fid :
    ∀ (l : List RawChapter) (k : ℕ) (prev : RawChapter),
      (midFrames k prev l).map (fun f => f.fid) =
        (List.range l.length).map (fun i => "ch" ++ toString (k + i)) := by
  intro l
  induction l with
  | nil => intro k prev; rfl
  | cons c rest ih =>
    intro k prev
    simp only [midFrames, List.map_cons, List.length_cons,
      List.range_succ_eq_map, List.map_map]
    congr 1
    rw [ih (k + 1) c]
    apply List.map_congr_left
    intro x hx
    simp only [Function.comp_apply, Nat.succ_eq_add_one]
    rw [show k + 1 + x = k + (x + 1) from by omega]

/-- Reduction of `buildPart` in the validated, in-range case. -/
theorem buildPart_ok (spines : List RawSpine) (s : ℤ) (c0 : RawChapter)
    (rest : List RawChapter)
    (hchain : List.Chain' (fun a b => a.offset < b.offset) (c0 :: rest))
    (sp : RawSpine)
    (hsp : pyIndex spines ((c0 :: rest).getLast (by simp)).spine = some sp) :
    buildPart spines s (c0 :: rest) = Except.ok
      ⟨midFrames 1 c0 rest ++
          [⟨"last", pyInt ((c0 :: rest).getLast (by simp)).offset * 1000,
            pyInt (sp.duration * 1000), ((c0 :: rest).getLast (by simp)).title⟩],
        ⟨"toc", (midFrames 1 c0 rest).map (fun f => f.fid) ++ ["last"], true,
          "Table of Contents"⟩⟩ := by
  have hfo : findOverlap s (c0 :: rest) = none := by
    simp only [findOverlap]
    exact findOverlapGo_none_of_chain s rest c0 hchain
  simp only [buildPart, hfo, hsp]

/-! ## C3: non-increasing offsets raise the overlapping-chapters error -/

/-- C3: when the chapters selected for spine `s` contain a consecutive pair
with non-increasing offsets, per-part processing fails with an
overlapping-chapters error carrying the spine index and the titles and
offsets of an offending consecutive pair; no tag payload is produced (the
result is an error, so processing neither proceeds, skips, nor reorders). -/
theorem bake_overlap_error (spines : List RawSpine) (chaps : List RawChapter)
    (s : ℤ) (cs : List RawChapter)
    (hcs : chaps.filter (fun c => c.spine == s) = cs)
    (j : ℕ) (a b : RawChapter)
    (ha : cs[j]? = some a) (hb : cs[j+1]? = some b)
    (hba : b.offset ≤ a.offset) :
    ∃ (k : ℕ) (p q : RawChapter), cs[k]? = some p ∧ cs[k+1]? = some q ∧
      q.offset ≤ p.offset ∧
      bakePart spines chaps s = Except.error (BakeError.overlap
        ⟨s, p.title, p.offset, q.title, q.offset⟩) := by
  have hne : cs ≠ [] := by
    intro h
    rw [h] at ha
    simp at ha
  obtain ⟨c0, rest, rfl⟩ := List.exists_cons_of_ne_nil hne
  cases hfo : findOverlapGo s c0 rest with
  | none =>
    exfalso
    have hchain := findOverlapGo_none_chain s rest c0 hfo
    exact absurd hba (not_le.mpr (chain_lt_at (c0 :: rest) hchain j a b ha hb))
  | some e =>
    obtain ⟨k, p, q, hk, hk1, hle, he⟩ := findOverlapGo_some_shape s rest c0 e hfo
    refine ⟨k, p, q, hk, hk1, hle, ?_⟩
    have hfo' : findOverlap s (c0 :: rest) = some e := by
      simp only [findOverlap, hfo]
    rw [bakePart, hcs]
    simp only [buildPart, hfo', he]

/-- Concrete spines for the C3 witness. -/
def spinesC3 : List RawSpine := [⟨1⟩]

/-- Concrete chapters for the C3 witness: two chapters of spine `0` at the
same offset. -/
def chapsC3 : List RawChapter := [⟨"A", 0, 10⟩, ⟨"B", 0, 10⟩]

/-- Witness for C3 at `spinesC3`/`chapsC3`. -/
theorem bake_overlap_error_witness :
    chapsC3.filter (fun c => c.spine == 0) = chapsC3 ∧
    chapsC3[0]? = some ⟨"A", 0, 10⟩ ∧
    chapsC3[0+1]? = some ⟨"B", 0, 10⟩ ∧
    ((⟨"B", 0, 10⟩ : RawChapter).offset ≤ (⟨"A", 0, 10⟩ : RawChapter).offset) ∧
    (∃ (k : ℕ) (p q : RawChapter), chapsC3[k]? = some p ∧
      chapsC3[k+1]? = some q ∧ q.offset ≤ p.offset ∧
      bakePart spinesC3 chapsC3 0 = Except.error (BakeError.overlap
        ⟨0, p.title, p.offset, q.title, q.offset⟩)) := by
  refine ⟨by decide, rfl, rfl, by decide, ?_⟩
  exact bake_overlap_error spinesC3 chapsC3 0 chapsC3 (by decide)
    0 ⟨"A", 0, 10⟩ ⟨"B", 0, 10⟩ rfl rfl (by decide)

/-! ## C2: per-part chapter boundaries -/

/-- Concrete spines for the C2 counterexample. -/
def spinesC2 : List RawSpine := [⟨2⟩]

/-- Concrete chapters for the C2 counterexample: the second chapter starts
at the fractional offset `1.5` seconds. -/
def chapsC2 : List RawChapter := [⟨"a", 0, 0⟩, ⟨"b", 0, 3/2⟩]

/-- C2 counterexample: with strictly increasing offsets `0` and `1.5`
seconds, the first chapter's `local_end_ms` is `int(1.5) * 1000 - 1 = 999`,
not `1.5 * 1000 - 1 = 1499`, and the last chapter's `local_start_ms` is
`1000`, not `1500`: the code truncates each offset to whole seconds
*before* scaling to milliseconds. -/
theorem bake_offset_truncation_cex :
    List.Chain' (fun a b => a.offset < b.offset)
      (chapsC2.filter (fun c => c.spine == 0)) ∧
    bakePart spinesC2 chapsC2 0 = Except.ok
      ⟨[⟨"ch1", 0, 999, "a"⟩, ⟨"last", 1000, 2000, "b"⟩],
        ⟨"toc", ["ch1", "last"], true, "Table of Contents"⟩⟩ ∧
    ((999 : ℚ) ≠ (3/2 : ℚ) * 1000 - 1) ∧
    ((1000 : ℚ) ≠ (3/2 : ℚ) * 1000) := by
  refine ⟨?_, ?_, by norm_num, by norm_num⟩
  · simp only [chapsC2, List.filter, List.chain'_cons, List.chain'_singleton,
      and_true]
    norm_num
  · norm_num [bakePart, buildPart, findOverlap, findOverlapGo, midFrames,
      pyIndex, pyInt, spinesC2, chapsC2, List.getLast, List.filter]
    decide

/-- C2 amended: for a part with at least one chapter and strictly
increasing offsets, every chapter except the last receives
`local_start_ms = int(offset) * 1000` and
`local_end_ms = int(next.offset) * 1000 - 1` (offsets truncated to whole
seconds before scaling, one millisecond before the next chapter's start),
and the last chapter receives `local_end_ms = int(duration * 1000)` (the
duration scaled to milliseconds, then truncated); a part with exactly one
chapter yields one entry whose `local_end_ms` is `int(duration * 1000)`. -/
theorem bake_local_chapter_bounds (spines : List RawSpine)
    (chaps : List RawChapter) (s : ℤ) (cs : List RawChapter)
    (hcs : chaps.filter (fun c => c.spine == s) = cs)
    (hne : cs ≠ [])
    (hchain : List.Chain' (fun a b => a.offset < b.offset) cs)
    (hs0 : 0 ≤ s) (hs1 : s < (spines.length : ℤ)) :
    ∃ (pt : PartTags) (sp : RawSpine),
      bakePart spines chaps s = Except.ok pt ∧
      spines[s.toNat]? = some sp ∧
      pt.frames.length = cs.length ∧
      (∀ (i : ℕ) (a b : RawChapter), cs[i]? = some a → cs[i+1]? = some b →
        pt.frames[i]? = some (Frame.mk ("ch" ++ toString (i+1))
          (pyInt a.offset * 1000) (pyInt b.offset * 1000 - 1) a.title)) ∧
      (∀ a : RawChapter, cs.getLast? = some a →
        pt.frames.getLast? = some (Frame.mk "last" (pyInt a.offset * 1000)
          (pyInt (sp.duration * 1000)) a.title)) := by
  obtain ⟨c0, rest, rfl⟩ := List.exists_cons_of_ne_nil hne
  have hlast_mem : (c0 :: rest).getLast (by simp) ∈
      chaps.filter (fun c => c.spine == s) := by
    rw [hcs]
    exact List.getLast_mem _
  have hlast_spine : ((c0 :: rest).getLast (by simp)).spine = s := by
    have h2 := (List.mem_filter.mp hlast_mem).2
    simpa using h2
  obtain ⟨sp, hsp, hsp'⟩ := pyIndex_in_range spines s hs0 hs1
  have hsp2 : pyIndex spines ((c0 :: rest).getLast (by simp)).spine = some sp := by
    rw [hlast_spine]
    exact hsp
  refine ⟨_, sp, by rw [bakePart, hcs]; exact buildPart_ok spines s c0 rest hchain sp hsp2,
    hsp', ?_, ?_, ?_⟩
  · simp [midFrames_length]
  · intro i a b ha hb
    have hb' : rest[i]? = some b := by simpa using hb
    have hilt : i < rest.length := lt_length_of_some_index hb'
    rw [List.getElem?_append_left (by rw [midFrames_length]; exact hilt)]
    rw [show i + 1 = 1 + i from by omega]
    exact midFrames_index rest 1 c0 i a b ha hb'
  · intro a hlast
    have ha : a = (c0 :: rest).getLast (by simp) := by
      rw [List.getLast?_eq_getLast _ (by simp)] at hlast
      exact (Option.some.inj hlast).symm
    rw [List.getLast?_concat, ha]

/-- Concrete spines for the C2 witness. -/
def spinesC2w : List RawSpine := [⟨2⟩]

/-- Concrete chapters for the C2 witness (integer offsets). -/
def chapsC2w : List RawChapter := [⟨"a", 0, 0⟩, ⟨"b", 0, 1⟩]

/-- Witness for C2 at `spinesC2w`/`chapsC2w`. -/
theorem bake_local_chapter_bounds_witness :
    chapsC2w.filter (fun c => c.spine == 0) = chapsC2w ∧
    chapsC2w ≠ [] ∧
    List.Chain' (fun a b => a.offset < b.offset) chapsC2w ∧
    (0 : ℤ) ≤ 0 ∧ (0 : ℤ) < (spinesC2w.length : ℤ) ∧
    (∃ (pt : PartTags) (sp : RawSpine),
      bakePart spinesC2w chapsC2w 0 = Except.ok pt ∧
      spinesC2w[(0 : ℤ).toNat]? = some sp ∧
      pt.frames.length = chapsC2w.length ∧
      (∀ (i : ℕ) (a b : RawChapter), chapsC2w[i]? = some a →
        chapsC2w[i+1]? = some b →
        pt.frames[i]? = some (Frame.mk ("ch" ++ toString (i+1))
          (pyInt a.offset * 1000) (pyInt b.offset * 1000 - 1) a.title)) ∧
      (∀ a : RawChapter, chapsC2w.getLast? = some a →
        pt.frames.getLast? = some (Frame.mk "last" (pyInt a.offset * 1000)
          (pyInt (sp.duration * 1000)) a.title))) := by
  have hch : List.Chain' (fun a b => a.offset < b.offset) chapsC2w := by
    simp only [chapsC2w, List.chain'_cons, List.chain'_singleton, and_true]
    norm_num
  refine ⟨by decide, by decide, hch, by decide, by decide, ?_⟩
  exact bake_local_chapter_bounds spinesC2w chapsC2w 0 chapsC2w (by decide)
    (by decide) hch (by decide) (by decide)

/-! ## C6: chapter element ids and the table of contents -/

/-- Concrete spines for the C6 counterexample and witness. -/
def spinesC6 : List RawSpine := [⟨3⟩]

/-- Concrete chapters for the C6 counterexample and witness. -/
def chapsC6 : List RawChapter := [⟨"x", 0, 0⟩, ⟨"y", 0, 1⟩]

/-- C6 counterexample: for a two-chapter part the synthetic identifiers are
`["ch1", "last"]`, not `["ch0", "last"]` — the loop index used for
`f"ch{i}"` is the index of the *following* chapter, so the ascending ids
start at `"ch1"`, and no `"ch0"` is ever assigned. -/
theorem bake_child_ids_cex :
    (∃ pt : PartTags, bakePart spinesC6 chapsC6 0 = Except.ok pt ∧
      pt.toc.children = ["ch1", "last"]) ∧
    (["ch1", "last"] : List String) ≠ ["ch0", "last"] := by
  refine ⟨⟨⟨[⟨"ch1", 0, 999, "x"⟩, ⟨"last", 1000, 3000, "y"⟩],
    ⟨"toc", ["ch1", "last"], true, "Table of Contents"⟩⟩, ?_, rfl⟩, by decide⟩
  norm_num [bakePart, buildPart, findOverlap, findOverlapGo, midFrames,
    pyIndex, pyInt, spinesC6, chapsC6, List.getLast, List.filter]
  decide

/-- C6 amended: for a part with at least one chapter, the non-final
chapters get synthetic ascending ASCII identifiers `"ch1"`, `"ch2"`, …
(starting at `"ch1"`, since the loop index of the following chapter is
used), the final chapter gets the fixed identifier `"last"`, and the
table-of-contents entry references those identifiers in chapter order,
marked as the top-level table, with the fixed description
`"Table of Contents"`. -/
theorem bake_child_ids (spines : List RawSpine) (chaps : List RawChapter)
    (s : ℤ) (cs : List RawChapter)
    (hcs : chaps.filter (fun c => c.spine == s) = cs)
    (hne : cs ≠ [])
    (hchain : List.Chain' (fun a b => a.offset < b.offset) cs)
    (hs0 : 0 ≤ s) (hs1 : s < (spines.length : ℤ)) :
    ∃ pt : PartTags,
      bakePart spines chaps s = Except.ok pt ∧
      pt.toc.tid = "toc" ∧ pt.toc.toplevel = true ∧
      pt.toc.description = "Table of Contents" ∧
      pt.toc.children =
        (List.range (cs.length - 1)).map (fun i => "ch" ++ toString (i+1)) ++
          ["last"] ∧
      pt.frames.map (fun f => f.fid) = pt.toc.children := by
  obtain ⟨c0, rest, rfl⟩ := List.exists_cons_of_ne_nil hne
  have hlast_mem : (c0 :: rest).getLast (by simp) ∈
      chaps.filter (fun c => c.spine == s) := by
    rw [hcs]
    exact List.getLast_mem _
  have hlast_spine : ((c0 :: rest).getLast (by simp)).spine = s := by
    have h2 := (List.mem_filter.mp hlast_mem).2
    simpa using h2
  obtain ⟨sp, hsp, hsp'⟩ := pyIndex_in_range spines s hs0 hs1
  have hsp2 : pyIndex spines ((c0 :: rest).getLast (by simp)).spine = some sp := by
    rw [hlast_spine]
    exact hsp
  have hok := buildPart_ok spines s c0 rest hchain sp hsp2
  refine ⟨_, by rw [bakePart, hcs]; exact hok, rfl, rfl, rfl, ?_, ?_⟩
  · show (midFrames 1 c0 rest).map (fun f => f.fid) ++ ["last"] =
      (List.range ((c0 :: rest).length - 1)).map
        (fun i => "ch" ++ toString (i+1)) ++ ["last"]
    rw [midFrames_map_fid]
    congr 1
    simp only [List.length_cons, Nat.add_sub_cancel]
    apply List.map_congr_left
    intro x hx
    rw [show 1 + x = x + 1 from by omega]
  · show (midFrames 1 c0 rest ++
        [Frame.mk "last" (pyInt ((c0 :: rest).getLast (by simp)).offset * 1000)
          (pyInt (sp.duration * 1000)) ((c0 :: rest).getLast (by simp)).title]).map
        (fun f => f.fid) =
      (midFrames 1 c0 rest).map (fun f => f.fid) ++ ["last"]
    rw [List.map_append]
    simp

/-- Witness for C6 at `spinesC6`/`chapsC6`. -/
theorem bake_child_ids_witness :
    chapsC6.filter (fun c => c.spine == 0) = chapsC6 ∧
    chapsC6 ≠ [] ∧
    List.Chain' (fun a b => a.offset < b.offset) chapsC6 ∧
    (0 : ℤ) ≤ 0 ∧ (0 : ℤ) < (spinesC6.length : ℤ) ∧
    (∃ pt : PartTags,
      bakePart spinesC6 chapsC6 0 = Except.ok pt ∧
      pt.toc.tid = "toc" ∧ pt.toc.toplevel = true ∧
      pt.toc.description = "Table of Contents" ∧
      pt.toc.children =
        (List.range (chapsC6.length - 1)).map (fun i => "ch" ++ toString (i+1)) ++
          ["last"] ∧
      pt.frames.map (fun f => f.fid) = pt.toc.children) := by
  have hch : List.Chain' (fun a b => a.offset < b.offset) chapsC6 := by
    simp only [chapsC6, List.chain'_cons, List.chain'_singleton, and_true]
    norm_num
  refine ⟨by decide, by decide, hch, by decide, by decide, ?_⟩
  exact bake_child_ids spinesC6 chapsC6 0 chapsC6 (by decide) (by decide)
    hch (by decide) (by decide)

/-! ## C7: a part with zero chapters -/

/-- C7 counterexample: for a part with zero chapters the produced
table-of-contents child list is `["last"]` — a dangling reference to a
`"last"` chapter frame that was never created — not the empty list; no
error is raised. -/
theorem bake_empty_toc_cex :
    bakePart [⟨1⟩] [] 0 =
      Except.ok ⟨[], ⟨"toc", ["last"], true, "Table of Contents"⟩⟩ ∧
    (["last"] : List String) ≠ [] := by
  refine ⟨?_, by decide⟩
  simp [bakePart, buildPart, findOverlap]

/-- C7 amended: for a part with zero chapters, no chapter frames are
emitted and the table-of-contents entry's child list is `child_ids +
[b"last"] = ["last"]` — a reference to a nonexistent `"last"` frame — and
this is produced as valid output, not an error. -/
theorem bake_empty_toc (spines : List RawSpine) (chaps : List RawChapter)
    (s : ℤ) (h : chaps.filter (fun c => c.spine == s) = []) :
    bakePart spines chaps s =
      Except.ok ⟨[], ⟨"toc", ["last"], true, "Table of Contents"⟩⟩ := by
  rw [bakePart, h]
  simp [buildPart, findOverlap]

/-- Witness for C7: a chapter list whose only chapter belongs to another
spine, so spine `0` selects zero chapters. -/
theorem bake_empty_toc_witness :
    ([⟨"x", 1, 0⟩] : List RawChapter).filter (fun c => c.spine == 0) = [] ∧
    bakePart [⟨1⟩] [⟨"x", 1, 0⟩] 0 =
      Except.ok ⟨[], ⟨"toc", ["last"], true, "Table of Contents"⟩⟩ :=
  ⟨by decide, bake_empty_toc [⟨1⟩] [⟨"x", 1, 0⟩] 0 (by decide)⟩

end LibbyRip
